import Mathlib

/-!
# Verification of the bookstore query layer

A shallow embedding of the query layer in `queries.js`: a MongoDB
collection of book documents together with the operations the script
issues against it (pagination via `showPage`, the three aggregation
pipelines, `updateOne` on price, `deleteOne` by title).

The collection is modelled as a `List Book` (the store's default document
order is the list order).  Prices are modelled as rationals, years as
integers.  MongoDB's `$mod` is truncated remainder, i.e. `Int.tmod`.
`updateOne` / `deleteOne` affect only the first matching document, which
the recursive definitions below mirror.
-/

/-- A book document, with the fields the script's sample data uses
(`title`, `author`, `genre`, `published_year`, `price`, `in_stock`). -/
structure Book where
  title : String
  author : String
  genre : String
  published_year : Int
  price : ℚ
  in_stock : Bool
  deriving DecidableEq

/-- The projection `{ title: 1, author: 1, price: 1, _id: 0 }` used by the
pagination query. -/
structure ProjectedBook where
  title : String
  author : String
  price : ℚ
  deriving DecidableEq

/-- Apply the `{title, author, price}` projection to a document. -/
def projectBook (b : Book) : ProjectedBook :=
  ⟨b.title, b.author, b.price⟩

/-- Lexicographic comparison of character lists by code point, the
order the store uses for string sort keys. -/
def strLeAux : List Char → List Char → Bool
  | [], _ => true
  | _ :: _, [] => false
  | a :: as, b :: bs =>
    if a.toNat = b.toNat then strLeAux as bs else decide (a.toNat < b.toNat)

/-- Lexicographic order on strings (by code point). -/
def strLe (s t : String) : Bool :=
  strLeAux s.data t.data

theorem strLeAux_total : ∀ as bs, strLeAux as bs = true ∨ strLeAux bs as = true
  | [], _ => by left; rfl
  | _ :: _, [] => by right; rfl
  | a :: as, b :: bs => by
    by_cases h : a.toNat = b.toNat
    · rcases strLeAux_total as bs with h1 | h1
      · left; simp [strLeAux, h, h1]
      · right; simp [strLeAux, h.symm, h1]
    · rcases Nat.lt_or_ge a.toNat b.toNat with hlt | hge
      · left; simp [strLeAux, h, hlt]
      · right
        have hba : b.toNat ≠ a.toNat := fun e => h e.symm
        simp only [strLeAux, if_neg hba, decide_eq_true_eq]
        omega

theorem strLeAux_trans :
    ∀ as bs cs, strLeAux as bs = true → strLeAux bs cs = true →
      strLeAux as cs = true
  | [], _, _, _, _ => rfl
  | _ :: _, [], _, h1, _ => by simp [strLeAux] at h1
  | _ :: _, _ :: _, [], _, h2 => by simp [strLeAux] at h2
  | a :: as, b :: bs, c :: cs, h1, h2 => by
    by_cases hab : a.toNat = b.toNat <;> by_cases hbc : b.toNat = c.toNat
    · simp only [strLeAux, if_pos hab] at h1
      simp only [strLeAux, if_pos hbc] at h2
      simp only [strLeAux, if_pos (hab.trans hbc)]
      exact strLeAux_trans as bs cs h1 h2
    · simp only [strLeAux, if_neg hbc, decide_eq_true_eq] at h2
      have hac : a.toNat ≠ c.toNat := by omega
      simp only [strLeAux, if_neg hac, decide_eq_true_eq]
      omega
    · simp only [strLeAux, if_neg hab, decide_eq_true_eq] at h1
      have hac : a.toNat ≠ c.toNat := by omega
      simp only [strLeAux, if_neg hac, decide_eq_true_eq]
      omega
    · simp only [strLeAux, if_neg hab, decide_eq_true_eq] at h1
      simp only [strLeAux, if_neg hbc, decide_eq_true_eq] at h2
      have hac : a.toNat ≠ c.toNat := by omega
      simp only [strLeAux, if_neg hac, decide_eq_true_eq]
      omega

/-- The sort descriptor `{ title: 1 }`: ascending order on `title`. -/
def byTitle (a b : ProjectedBook) : Prop :=
  strLe a.title b.title = true

instance : DecidableRel byTitle :=
  fun a b => inferInstanceAs (Decidable (strLe a.title b.title = true))

instance : IsTotal ProjectedBook byTitle :=
  ⟨fun a b => strLeAux_total a.title.data b.title.data⟩

instance : IsTrans ProjectedBook byTitle :=
  ⟨fun _ b _ hab hbc => strLeAux_trans _ b.title.data _ hab hbc⟩

/-- The title-sorted, fully projected result set that
`db.books.find({}, {title,author,price,_id:0}).sort({title:1})`
produces before any `skip`/`limit` window is applied. -/
def fullResultSet (db : List Book) : List ProjectedBook :=
  List.insertionSort byTitle (db.map projectBook)

/-- `pageSize`: the constant `const pageSize = 5` captured by `showPage`. -/
def pageSize : Nat := 5

/-- The pagination algorithm of `showPage`, with the page size abstracted
as a parameter: `offset = (pageNumber - 1) * pSize`, then the window
`[offset, offset + pSize)` of the title-sorted projected result set
(`sort` → `skip` → `limit`). -/
def paginate (db : List Book) (pageNumber pSize : Nat) : List ProjectedBook :=
  ((fullResultSet db).drop ((pageNumber - 1) * pSize)).take pSize

/-- The `skip`/`limit` arguments `showPage` hands to the store.  The skip
count is computed in (arbitrary-precision) integer arithmetic, exactly as
the JavaScript `(page - 1) * pageSize` is. -/
structure FindRequest where
  skip : Int
  limit : Nat
  deriving DecidableEq

/-- The request `showPage page` builds: `skip = (page - 1) * pageSize`,
`limit = pageSize`, with no validation of `page`. -/
def showPageRequest (page : Int) : FindRequest :=
  ⟨(page - 1) * (pageSize : Int), pageSize⟩

/-- The store's execution of a sorted/projected find with `skip`/`limit`:
a negative skip is rejected by the server (no result), otherwise the
window `[skip, skip + limit)` of the sorted result set is returned. -/
def execFind (db : List Book) (req : FindRequest) : Option (List ProjectedBook) :=
  if req.skip < 0 then none
  else some (((fullResultSet db).drop req.skip.toNat).take req.limit)

/-- `showPage` from `queries.js`: builds the skip/limit request from the
page number alone (the page size is the captured constant) and forwards
it to the store. -/
def showPage (db : List Book) (page : Int) : Option (List ProjectedBook) :=
  execFind db (showPageRequest page)

example :
    fullResultSet
        [⟨"B", "y", "g", 2001, 12, true⟩, ⟨"A", "x", "g", 2000, 10, true⟩] =
      [⟨"A", "x", 10⟩, ⟨"B", "y", 12⟩] := by
  decide

example :
    showPage [⟨"B", "y", "g", 2001, 12, true⟩, ⟨"A", "x", "g", 2000, 10, true⟩] 1 =
      some [⟨"A", "x", 10⟩, ⟨"B", "y", 12⟩] := by
  decide

example : showPage [⟨"B", "y", "g", 2001, 12, true⟩] 0 = none := by
  decide

/-! ## Aggregation pipelines -/

/-- `decade: { $subtract: ["$published_year", { $mod: ["$published_year", 10] }] }`.
`$mod` is the store's truncated remainder, i.e. `Int.tmod`. -/
def decadeOf (y : Int) : Int :=
  y - Int.tmod y 10

/-- The computed `decade` field of a document. -/
def decade (b : Book) : Int :=
  decadeOf b.published_year

/-- The `countByDecade` pipeline: `$project` a `decade` field,
`$group` by it with `count: { $sum: 1 }`, then `$sort: { _id: 1 }`.
A row is a `(decade, count)` pair. -/
def countByDecade (db : List Book) : List (Int × Nat) :=
  (List.insertionSort (· ≤ ·) ((db.map decade).dedup)).map
    (fun d => (d, db.countP (fun b => decade b == d)))

/-- A result row of the average-price-by-genre pipeline. -/
structure GenreRow where
  genre : String
  avgPrice : ℚ
  count : Nat
  deriving DecidableEq

/-- The `$group` stage of the average-price pipeline applied to one genre
key: `avgPrice: { $avg: "$price" }`, `count: { $sum: 1 }`. -/
def genreRowOf (db : List Book) (g : String) : GenreRow :=
  let grp := db.filter (fun b => b.genre == g)
  ⟨g, (grp.map Book.price).sum / (grp.length : ℚ), grp.length⟩

/-- The sort descriptor `{ avgPrice: -1 }`: descending average price. -/
def byAvgPriceDesc (a b : GenreRow) : Prop :=
  b.avgPrice ≤ a.avgPrice

instance : DecidableRel byAvgPriceDesc :=
  fun a b => inferInstanceAs (Decidable (b.avgPrice ≤ a.avgPrice))

instance : IsTotal GenreRow byAvgPriceDesc :=
  ⟨fun a b => le_total b.avgPrice a.avgPrice⟩

instance : IsTrans GenreRow byAvgPriceDesc :=
  ⟨fun _ _ _ hab hbc => le_trans hbc hab⟩

/-- The `averagePriceByGenre` pipeline: `$group` by `genre` with average
price and count, then `$sort: { avgPrice: -1 }`. -/
def averagePriceByGenre (db : List Book) : List GenreRow :=
  List.insertionSort byAvgPriceDesc (((db.map Book.genre).dedup).map (genreRowOf db))

/-- A result row of the top-author pipeline. -/
structure AuthorRow where
  author : String
  count : Nat
  deriving DecidableEq

/-- The `$group` output of the top-author pipeline: one row per distinct
author, counting that author's documents. -/
def authorRows (db : List Book) : List AuthorRow :=
  ((db.map Book.author).dedup).map
    (fun a => ⟨a, db.countP (fun b => b.author == a)⟩)

/-- The sort descriptor `{ count: -1 }`: descending book count. -/
def byCountDesc (a b : AuthorRow) : Prop :=
  b.count ≤ a.count

instance : DecidableRel byCountDesc :=
  fun a b => inferInstanceAs (Decidable (b.count ≤ a.count))

instance : IsTotal AuthorRow byCountDesc :=
  ⟨fun a b => le_total b.count a.count⟩

instance : IsTrans AuthorRow byCountDesc :=
  ⟨fun _ _ _ hab hbc => le_trans hbc hab⟩

/-- The `topAuthorByBookCount` pipeline: `$group` by author with count,
`$sort: { count: -1 }`, `$limit: 1`. -/
def topAuthorByBookCount (db : List Book) : List AuthorRow :=
  (List.insertionSort byCountDesc (authorRows db)).take 1

/-! ## Write operations -/

/-- `db.books.updateOne({ title: t }, { $set: { price: p } })`: set the
`price` of the first document whose `title` matches, leaving everything
else untouched; returns the new collection together with the modified
count.  No upsert: an empty match modifies nothing. -/
def updatePrice : List Book → String → ℚ → List Book × Nat
  | [], _, _ => ([], 0)
  | b :: rest, t, p =>
    if b.title = t then ({ b with price := p } :: rest, 1)
    else
      let r := updatePrice rest t p
      (b :: r.1, r.2)

/-- `db.books.deleteOne({ title: t })`: remove the first document whose
`title` matches; returns the new collection together with the deleted
count. -/
def deleteByTitle : List Book → String → List Book × Nat
  | [], _ => ([], 0)
  | b :: rest, t =>
    if b.title = t then (rest, 1)
    else
      let r := deleteByTitle rest t
      (b :: r.1, r.2)

/-- `db.books.find({ title: t })`: the documents whose `title` matches,
in store order. -/
def findByTitle (db : List Book) (t : String) : List Book :=
  db.filter (fun b => b.title == t)

example :
    countByDecade
        [⟨"A", "x", "g", 2015, 10, true⟩, ⟨"B", "y", "g", 1999, 12, true⟩,
         ⟨"C", "z", "g", 2011, 9, true⟩] =
      [(1990, 1), (2010, 2)] := by
  decide

example :
    averagePriceByGenre
        [⟨"A", "x", "Fantasy", 2000, 10, true⟩, ⟨"B", "y", "Fantasy", 2020, 20, true⟩] =
      [⟨"Fantasy", 15, 2⟩] := by
  simp only [averagePriceByGenre, List.map_cons, List.map_nil,
    List.dedup_cons_of_mem, List.mem_cons, List.mem_singleton]
  norm_num
  simp only [genreRowOf, List.filter_cons, List.filter_nil]
  norm_num [GenreRow.mk.injEq]

example :
    topAuthorByBookCount
        [⟨"A", "x", "g", 2000, 10, true⟩, ⟨"B", "y", "g", 2020, 20, true⟩,
         ⟨"C", "y", "g", 2021, 20, true⟩] =
      [⟨"y", 2⟩] := by
  decide

example :
    updatePrice [⟨"A", "x", "g", 2000, 10, true⟩, ⟨"B", "y", "g", 2020, 20, true⟩]
        "B" 14 =
      ([⟨"A", "x", "g", 2000, 10, true⟩, ⟨"B", "y", "g", 2020, 14, true⟩], 1) := by
  decide

example :
    deleteByTitle [⟨"A", "x", "g", 2000, 10, true⟩, ⟨"B", "y", "g", 2020, 20, true⟩]
        "B" =
      ([⟨"A", "x", "g", 2000, 10, true⟩], 1) := by
  decide

/-! ## General facts about the embedded operations -/

theorem fullResultSet_sorted (db : List Book) :
    List.Sorted byTitle (fullResultSet db) :=
  List.sorted_insertionSort byTitle (db.map projectBook)

theorem fullResultSet_perm (db : List Book) :
    List.Perm (fullResultSet db) (db.map projectBook) :=
  List.perm_insertionSort byTitle (db.map projectBook)

theorem length_fullResultSet (db : List Book) :
    (fullResultSet db).length = db.length := by
  rw [(fullResultSet_perm db).length_eq, List.length_map]

theorem paginate_length (db : List Book) (k p : Nat) :
    (paginate db k p).length = min p (db.length - (k - 1) * p) := by
  simp [paginate, length_fullResultSet]

/-- `showPage` is the `pageSize = 5` instance of the pagination algorithm:
on a valid page number it returns exactly the `paginate` window. -/
theorem showPage_eq_paginate (db : List Book) (page : Int) (h : 1 ≤ page) :
    showPage db page = some (paginate db page.toNat 5) := by
  unfold showPage execFind showPageRequest paginate pageSize
  dsimp only
  rw [if_neg (by omega)]
  have hidx : ((page - 1) * ((5 : Nat) : Int)).toNat = (page.toNat - 1) * 5 := by
    omega
  rw [hidx]

/-- C1: for every `pageNumber ≥ 1` and `pageSize ≥ 1`,
`paginate(pageNumber, pageSize)` returns the window
`[offset, offset + pageSize)` of the full record set sorted by title
ascending and projected to `{title, author, price}`, where
`offset = (pageNumber - 1) * pageSize`; the result has at most `pageSize`
records (its length is `min pageSize (n - offset)`, so it may be shorter
on the last page), and it is empty for every page beyond the last. -/
theorem paginate_window_correct (db : List Book) (pageNumber pSize : Nat)
    (hpage : 1 ≤ pageNumber) (hsize : 1 ≤ pSize) :
    List.Sorted byTitle (fullResultSet db) ∧
    List.Perm (fullResultSet db) (db.map projectBook) ∧
    (∀ i : Nat, (paginate db pageNumber pSize)[i]? =
      if i < pSize then (fullResultSet db)[(pageNumber - 1) * pSize + i]? else none) ∧
    (paginate db pageNumber pSize).length =
      min pSize ((fullResultSet db).length - (pageNumber - 1) * pSize) ∧
    ((fullResultSet db).length ≤ (pageNumber - 1) * pSize →
      paginate db pageNumber pSize = []) := by
  refine ⟨fullResultSet_sorted db, fullResultSet_perm db, ?_, ?_, ?_⟩
  · intro i
    rw [paginate, List.getElem?_take, List.getElem?_drop]
  · simp [paginate]
  · intro h
    rw [paginate, List.drop_eq_nil_of_le h, List.take_nil]

theorem paginate_window_correct_witness :
    1 ≤ 2 ∧ 1 ≤ 2 ∧
    (paginate
        [⟨"B", "y", "g", 2001, 12, true⟩, ⟨"A", "x", "g", 2000, 10, true⟩,
         ⟨"C", "z", "h", 2015, 8, false⟩] 2 2).length =
      min 2 ((fullResultSet
        [⟨"B", "y", "g", 2001, 12, true⟩, ⟨"A", "x", "g", 2000, 10, true⟩,
         ⟨"C", "z", "h", 2015, 8, false⟩]).length - (2 - 1) * 2) :=
  ⟨by decide, by decide,
    (paginate_window_correct
      [⟨"B", "y", "g", 2001, 12, true⟩, ⟨"A", "x", "g", 2000, 10, true⟩,
       ⟨"C", "z", "h", 2015, 8, false⟩] 2 2 (by decide) (by decide)).2.2.2.1⟩

/-- C2: for every valid `k ≥ 1` and `p ≥ 1`, consecutive pages
`paginate(k, p)` and `paginate(k+1, p)` concatenate to the contiguous
segment `[(k-1)p, (k-1)p + 2p)` of the title-sorted full result set (no
record skipped or repeated between the pages), and when the full result
set has no duplicate rows the two pages are disjoint. -/
theorem paginate_consecutive_pages (db : List Book) (k p : Nat)
    (hk : 1 ≤ k) (hp : 1 ≤ p) :
    paginate db k p ++ paginate db (k + 1) p =
      ((fullResultSet db).drop ((k - 1) * p)).take (2 * p) ∧
    ((fullResultSet db).Nodup →
      List.Disjoint (paginate db k p) (paginate db (k + 1) p)) := by
  obtain ⟨j, rfl⟩ : ∃ j, k = j + 1 := ⟨k - 1, by omega⟩
  have hcat : paginate db (j + 1) p ++ paginate db (j + 1 + 1) p =
      ((fullResultSet db).drop ((j + 1 - 1) * p)).take (2 * p) := by
    show ((fullResultSet db).drop (j * p)).take p ++
        ((fullResultSet db).drop ((j + 1) * p)).take p =
      ((fullResultSet db).drop (j * p)).take (2 * p)
    rw [two_mul, List.take_add]
    congr 1
    rw [List.drop_drop, Nat.succ_mul, Nat.add_comm (j * p) p, Nat.add_comm p (j * p)]
  refine ⟨hcat, fun hnd => ?_⟩
  have hsub : (paginate db (j + 1) p ++ paginate db (j + 1 + 1) p).Sublist
      (fullResultSet db) := by
    rw [hcat]
    exact (List.take_sublist _ _).trans (List.drop_sublist _ _)
  exact List.disjoint_of_nodup_append (hnd.sublist hsub)

theorem paginate_consecutive_pages_witness :
    1 ≤ 1 ∧ 1 ≤ 2 ∧
    paginate
        [⟨"B", "y", "g", 2001, 12, true⟩, ⟨"A", "x", "g", 2000, 10, true⟩,
         ⟨"C", "z", "h", 2015, 8, false⟩] 1 2 ++
      paginate
        [⟨"B", "y", "g", 2001, 12, true⟩, ⟨"A", "x", "g", 2000, 10, true⟩,
         ⟨"C", "z", "h", 2015, 8, false⟩] 2 2 =
      ((fullResultSet
        [⟨"B", "y", "g", 2001, 12, true⟩, ⟨"A", "x", "g", 2000, 10, true⟩,
         ⟨"C", "z", "h", 2015, 8, false⟩]).drop ((1 - 1) * 2)).take (2 * 2) :=
  ⟨by decide, by decide,
    (paginate_consecutive_pages
      [⟨"B", "y", "g", 2001, 12, true⟩, ⟨"A", "x", "g", 2000, 10, true⟩,
       ⟨"C", "z", "h", 2015, 8, false⟩] 1 2 (by decide) (by decide)).1⟩

/-- The number of pages needed to show `n` records at `p` per page:
`⌈n / p⌉`, computed as `(n + p - 1) / p`. -/
def ceilPages (n p : Nat) : Nat :=
  (n + p - 1) / p

/-- `ceilPages n p` is the ceiling of `n / p`: the Galois characterisation
`⌈n/p⌉ ≤ m ↔ n ≤ m * p`. -/
theorem ceilPages_le_iff {n p m : Nat} (hp : 0 < p) :
    ceilPages n p ≤ m ↔ n ≤ m * p := by
  unfold ceilPages
  have hmp : (m + 1) * p = m * p + p := by ring
  constructor
  · intro h
    have h2 : ¬ m < (n + p - 1) / p := Nat.not_lt.mpr h
    rw [Nat.lt_iff_add_one_le, Nat.le_div_iff_mul_le hp, hmp] at h2
    set t := m * p
    omega
  · intro h
    by_contra hc
    have h3 : m < (n + p - 1) / p := Nat.not_le.mp hc
    rw [Nat.lt_iff_add_one_le, Nat.le_div_iff_mul_le hp, hmp] at h3
    set t := m * p
    omega

theorem pages_length_sum (db : List Book) (p : Nat) :
    ∀ K : Nat,
      ((List.range K).map (fun i => (paginate db (i + 1) p).length)).sum =
        min (K * p) db.length := by
  intro K
  induction K with
  | zero => simp
  | succ K ih =>
    rw [List.range_succ, List.map_append, List.sum_append]
    simp only [List.map_cons, List.map_nil, List.sum_cons, List.sum_nil]
    rw [ih, paginate_length]
    have hKp : (K + 1) * p = K * p + p := by ring
    have hK1 : K + 1 - 1 = K := rfl
    rw [hKp, hK1]
    have hmin : ∀ a b c : Nat, min a c + (min b (c - a) + 0) = min (a + b) c := by
      intro a b c
      omega
    exact hmin (K * p) p db.length

/-- C3: for every page size `p ≥ 1` and total record count `n`, the pages
produced by `paginate` number `⌈n / p⌉` — page `k ≥ 1` is non-empty
exactly when `k ≤ ⌈n / p⌉` (and `ceilPages` is the ceiling by its Galois
characterisation) — and the lengths of all the pages sum to `n`. -/
theorem paginate_page_count_partition (db : List Book) (p : Nat) (hp : 1 ≤ p) :
    (∀ m : Nat, ceilPages db.length p ≤ m ↔ db.length ≤ m * p) ∧
    (∀ k : Nat, 1 ≤ k →
      (paginate db k p ≠ [] ↔ k ≤ ceilPages db.length p)) ∧
    (∀ K : Nat, ceilPages db.length p ≤ K →
      ((List.range K).map (fun i => (paginate db (i + 1) p).length)).sum =
        db.length) := by
  refine ⟨fun m => ceilPages_le_iff hp, ?_, ?_⟩
  · intro k hk
    rw [← List.length_pos, paginate_length]
    have hiff := ceilPages_le_iff (n := db.length) (m := k - 1) hp
    set c := ceilPages db.length p with hc
    set t := (k - 1) * p with ht
    omega
  · intro K hK
    rw [pages_length_sum]
    have hn : db.length ≤ K * p := (ceilPages_le_iff hp).mp hK
    omega

theorem paginate_page_count_partition_witness :
    1 ≤ 2 ∧ 1 ≤ 1 ∧
    (paginate
        [⟨"B", "y", "g", 2001, 12, true⟩, ⟨"A", "x", "g", 2000, 10, true⟩,
         ⟨"C", "z", "h", 2015, 8, false⟩] 1 2 ≠ [] ↔
      1 ≤ ceilPages
        ([⟨"B", "y", "g", 2001, 12, true⟩, ⟨"A", "x", "g", 2000, 10, true⟩,
          ⟨"C", "z", "h", 2015, 8, false⟩] : List Book).length 2) :=
  ⟨by decide, by decide,
    (paginate_page_count_partition
      [⟨"B", "y", "g", 2001, 12, true⟩, ⟨"A", "x", "g", 2000, 10, true⟩,
       ⟨"C", "z", "h", 2015, 8, false⟩] 2 (by decide)).2.1 1 (by decide)⟩

/-! ## Group-by counting -/

theorem sum_map_add_nat {α : Type} (l : List α) (f g : α → Nat) :
    (l.map (fun x => f x + g x)).sum = (l.map f).sum + (l.map g).sum := by
  induction l with
  | nil => rfl
  | cons x l ih =>
    simp only [List.map_cons, List.sum_cons, ih]
    omega

theorem sum_indicator_of_nodup {κ : Type} [BEq κ] [LawfulBEq κ] (c : κ) :
    ∀ keys : List κ, keys.Nodup → c ∈ keys →
      (keys.map (fun k => if c == k then 1 else 0)).sum = 1 := by
  intro keys
  induction keys with
  | nil =>
    intro _ hmem
    simp at hmem
  | cons k ks ih =>
    intro hnd hmem
    rw [List.nodup_cons] at hnd
    simp only [List.map_cons, List.sum_cons]
    rcases List.mem_cons.mp hmem with rfl | h
    · rw [if_pos (beq_self_eq_true c)]
      have hz : (ks.map (fun x => if c == x then 1 else 0)).sum = 0 := by
        apply List.sum_eq_zero
        intro x hx
        obtain ⟨k', hk', rfl⟩ := List.mem_map.mp hx
        rw [if_neg]
        intro e
        exact hnd.1 ((eq_of_beq e) ▸ hk')
      rw [hz]
    · have hne : (c == k) ≠ true := by
        intro e
        exact hnd.1 ((eq_of_beq e) ▸ h)
      rw [if_neg hne, ih hnd.2 h]

/-- Summing, over a duplicate-free list of keys covering every element of
`l`, the number of elements of `l` with each key, gives the length of `l`:
grouping partitions the list. -/
theorem countP_key_sum {α κ : Type} [BEq κ] [LawfulBEq κ] (key : α → κ) :
    ∀ (l : List α) (keys : List κ), keys.Nodup → (∀ a ∈ l, key a ∈ keys) →
      (keys.map (fun k => l.countP (fun a => key a == k))).sum = l.length := by
  intro l
  induction l with
  | nil =>
    intro keys _ _
    simp [List.countP_nil]
  | cons a l ih =>
    intro keys hnd hcov
    have hmem : key a ∈ keys := hcov a (List.mem_cons_self a l)
    simp only [List.countP_cons]
    rw [sum_map_add_nat]
    rw [ih keys hnd (fun x hx => hcov x (List.mem_cons_of_mem a hx))]
    rw [sum_indicator_of_nodup (key a) keys hnd hmem]
    simp

/-- C4: `countByDecade()` returns one `(decade, count)` row per distinct
computed decade, sorted by decade ascending, where
`decade = published_year - (published_year tmod 10)` — which agrees with
`published_year - (published_year mod 10)` for non-negative years, so
e.g. 2015 maps to 2010; the rows partition the record set: the counts sum
to the total record count and every record's computed decade appears
exactly once as a group key. -/
theorem countByDecade_partition (db : List Book) :
    List.Sorted (· ≤ ·) ((countByDecade db).map Prod.fst) ∧
    ((countByDecade db).map Prod.fst).Nodup ∧
    (∀ d : Int, d ∈ (countByDecade db).map Prod.fst ↔ ∃ b ∈ db, decade b = d) ∧
    (∀ r ∈ countByDecade db, r.2 = db.countP (fun b => decade b == r.1)) ∧
    ((countByDecade db).map Prod.snd).sum = db.length ∧
    (∀ y : Int, 0 ≤ y → decadeOf y = y - y % 10) ∧
    decadeOf 2015 = 2010 := by
  have hkeys : (countByDecade db).map Prod.fst =
      List.insertionSort (· ≤ ·) ((db.map decade).dedup) := by
    rw [countByDecade, List.map_map]
    have hcomp :
        (Prod.fst ∘ fun d : Int => (d, db.countP (fun b => decade b == d))) = id := rfl
    rw [hcomp, List.map_id]
  refine ⟨?_, ?_, ?_, ?_, ?_, ?_, by decide⟩
  · rw [hkeys]
    exact List.sorted_insertionSort _ _
  · rw [hkeys]
    exact ((List.perm_insertionSort _ _).nodup_iff).mpr (List.nodup_dedup _)
  · intro d
    rw [hkeys, (List.perm_insertionSort _ _).mem_iff, List.mem_dedup, List.mem_map]
  · intro r hr
    rw [countByDecade] at hr
    obtain ⟨d, _, rfl⟩ := List.mem_map.mp hr
    rfl
  · rw [countByDecade, List.map_map]
    have hcomp : (Prod.snd ∘ fun d : Int => (d, db.countP (fun b => decade b == d))) =
        fun d => db.countP (fun b => decade b == d) := rfl
    rw [hcomp]
    have hperm := (List.perm_insertionSort (· ≤ ·) ((db.map decade).dedup)).map
      (fun d => db.countP (fun b => decade b == d))
    rw [hperm.sum_eq]
    exact countP_key_sum decade db _ (List.nodup_dedup _)
      (fun b hb => List.mem_dedup.mpr (List.mem_map_of_mem decade hb))
  · intro y hy
    unfold decadeOf
    rw [Int.tmod_eq_emod hy (by omega)]

theorem countByDecade_partition_witness :
    ((2010, 2) : Int × Nat) ∈ countByDecade
        [⟨"A", "x", "g", 2015, 10, true⟩, ⟨"B", "y", "g", 1999, 12, true⟩,
         ⟨"C", "z", "g", 2011, 9, true⟩] ∧
    ((2010, 2) : Int × Nat).2 =
      ([⟨"A", "x", "g", 2015, 10, true⟩, ⟨"B", "y", "g", 1999, 12, true⟩,
        ⟨"C", "z", "g", 2011, 9, true⟩] : List Book).countP
          (fun b => decade b == ((2010, 2) : Int × Nat).1) :=
  ⟨by decide,
    (countByDecade_partition
      [⟨"A", "x", "g", 2015, 10, true⟩, ⟨"B", "y", "g", 1999, 12, true⟩,
       ⟨"C", "z", "g", 2011, 9, true⟩]).2.2.2.1 (2010, 2) (by decide)⟩

/-- C5: `averagePriceByGenre()` returns exactly one
`{genre, avgPrice, count}` row per distinct genre value present, sorted by
`avgPrice` descending, with `avgPrice` the arithmetic mean of the genre's
prices and `count` the number of its records; in particular, on the
two-record input of the spec's scenario (the fields the scenario leaves
out — `author`, `in_stock` — are filled arbitrarily; they do not affect
the pipeline) it returns `[{genre: "Fantasy", avgPrice: 15, count: 2}]`. -/
theorem averagePriceByGenre_correct (db : List Book) :
    ((averagePriceByGenre db).map GenreRow.genre).Nodup ∧
    (∀ g : String,
      g ∈ (averagePriceByGenre db).map GenreRow.genre ↔ ∃ b ∈ db, b.genre = g) ∧
    List.Sorted byAvgPriceDesc (averagePriceByGenre db) ∧
    (∀ r ∈ averagePriceByGenre db,
      0 < r.count ∧
      r.count = (db.filter (fun b => b.genre == r.genre)).length ∧
      r.avgPrice =
        ((db.filter (fun b => b.genre == r.genre)).map Book.price).sum / (r.count : ℚ)) ∧
    averagePriceByGenre
        [⟨"A", "x", "Fantasy", 2000, 10, true⟩, ⟨"B", "y", "Fantasy", 2020, 20, true⟩] =
      [⟨"Fantasy", 15, 2⟩] := by
  have hperm : List.Perm (averagePriceByGenre db)
      (((db.map Book.genre).dedup).map (genreRowOf db)) :=
    List.perm_insertionSort _ _
  have hgenres : List.Perm ((averagePriceByGenre db).map GenreRow.genre)
      ((db.map Book.genre).dedup) := by
    have h1 := hperm.map GenreRow.genre
    rw [List.map_map] at h1
    have hcomp : (GenreRow.genre ∘ genreRowOf db) = id := rfl
    rwa [hcomp, List.map_id] at h1
  refine ⟨?_, ?_, List.sorted_insertionSort _ _, ?_, ?_⟩
  · exact (hgenres.nodup_iff).mpr (List.nodup_dedup _)
  · intro g
    rw [hgenres.mem_iff, List.mem_dedup, List.mem_map]
  · intro r hr
    obtain ⟨g, hg, rfl⟩ := List.mem_map.mp (hperm.mem_iff.mp hr)
    obtain ⟨b, hb, hbg⟩ := List.mem_map.mp (List.mem_dedup.mp hg)
    have hbf : b ∈ db.filter (fun x => x.genre == g) :=
      List.mem_filter.mpr ⟨hb, by simp [hbg]⟩
    exact ⟨List.length_pos.mpr (List.ne_nil_of_mem hbf), rfl, rfl⟩
  · simp only [averagePriceByGenre, List.map_cons, List.map_nil,
      List.dedup_cons_of_mem, List.mem_cons, List.mem_singleton]
    norm_num
    simp only [genreRowOf, List.filter_cons, List.filter_nil]
    norm_num [GenreRow.mk.injEq]

theorem averagePriceByGenre_correct_witness :
    ((averagePriceByGenre
        [⟨"B", "y", "g", 2001, 12, true⟩, ⟨"A", "x", "g", 2000, 10, true⟩,
         ⟨"C", "z", "h", 2015, 8, false⟩]).map GenreRow.genre).Nodup :=
  (averagePriceByGenre_correct
    [⟨"B", "y", "g", 2001, 12, true⟩, ⟨"A", "x", "g", 2000, 10, true⟩,
     ⟨"C", "z", "h", 2015, 8, false⟩]).1

/-- C6: `topAuthorByBookCount()` groups records by author, counts records
per group, and returns exactly one `{author, count}` row whose count is
maximal over all groups (an arbitrary maximal group under ties — never
more than one row), or an empty result when the record set is empty. -/
theorem topAuthorByBookCount_correct (db : List Book) :
    (db = [] → topAuthorByBookCount db = []) ∧
    (db ≠ [] → ∃ a : String,
      topAuthorByBookCount db = [⟨a, db.countP (fun b => b.author == a)⟩] ∧
      (∃ b ∈ db, b.author = a) ∧
      ∀ x : String,
        db.countP (fun b => b.author == x) ≤ db.countP (fun b => b.author == a)) := by
  constructor
  · rintro rfl
    rfl
  · intro hne
    obtain ⟨b0, rest, rfl⟩ := List.exists_cons_of_ne_nil hne
    have hmem0 : b0.author ∈ ((b0 :: rest).map Book.author).dedup :=
      List.mem_dedup.mpr (List.mem_map_of_mem _ (List.mem_cons_self _ _))
    have hrowsne : authorRows (b0 :: rest) ≠ [] := by
      unfold authorRows
      intro h
      rw [List.map_eq_nil_iff] at h
      rw [h] at hmem0
      simp at hmem0
    have hsne : List.insertionSort byCountDesc (authorRows (b0 :: rest)) ≠ [] := by
      intro h
      have hlen := (List.perm_insertionSort byCountDesc (authorRows (b0 :: rest))).length_eq
      rw [h] at hlen
      exact hrowsne (List.eq_nil_of_length_eq_zero hlen.symm)
    obtain ⟨hd, tl, hs⟩ := List.exists_cons_of_ne_nil hsne
    have hsorted := List.sorted_insertionSort byCountDesc (authorRows (b0 :: rest))
    rw [hs] at hsorted
    have hhd : hd ∈ authorRows (b0 :: rest) := by
      have hp := List.perm_insertionSort byCountDesc (authorRows (b0 :: rest))
      exact hp.mem_iff.mp (hs ▸ List.mem_cons_self hd tl)
    obtain ⟨a, ha, hhda⟩ := List.mem_map.mp hhd
    refine ⟨a, ?_, ?_, ?_⟩
    · unfold topAuthorByBookCount
      rw [hs]
      show [hd] = _
      rw [← hhda]
    · obtain ⟨b, hb, hba⟩ := List.mem_map.mp (List.mem_dedup.mp ha)
      exact ⟨b, hb, hba⟩
    · intro x
      by_cases hx : x ∈ (b0 :: rest).map Book.author
      · have hrow : (⟨x, (b0 :: rest).countP (fun b => b.author == x)⟩ : AuthorRow) ∈
            authorRows (b0 :: rest) :=
          List.mem_map_of_mem _ (List.mem_dedup.mpr hx)
        have hmemsort : (⟨x, (b0 :: rest).countP (fun b => b.author == x)⟩ : AuthorRow) ∈
            hd :: tl := by
          rw [← hs]
          exact (List.perm_insertionSort byCountDesc (authorRows (b0 :: rest))).mem_iff.mpr hrow
        rcases List.mem_cons.mp hmemsort with heq | htl
        · exact le_of_eq (congrArg AuthorRow.count (heq.trans hhda.symm))
        · have h1 := List.rel_of_sorted_cons hsorted _ htl
          rw [← hhda] at h1
          exact h1
      · have hzero : (b0 :: rest).countP (fun b => b.author == x) = 0 := by
          rw [List.countP_eq_zero]
          intro b hb e
          exact hx (List.mem_map.mpr ⟨b, hb, eq_of_beq e⟩)
        rw [hzero]
        exact Nat.zero_le _

theorem topAuthorByBookCount_correct_witness :
    topAuthorByBookCount [] = [] :=
  (topAuthorByBookCount_correct []).1 rfl

/-! ## `updateOne` on price -/

theorem updatePrice_count_le (db : List Book) (t : String) (p : ℚ) :
    (updatePrice db t p).2 ≤ 1 := by
  induction db with
  | nil => exact Nat.zero_le _
  | cons b rest ih =>
    by_cases hb : b.title = t
    · simp [updatePrice, hb]
    · simpa [updatePrice, hb] using ih

theorem updatePrice_length (db : List Book) (t : String) (p : ℚ) :
    (updatePrice db t p).1.length = db.length := by
  induction db with
  | nil => rfl
  | cons b rest ih =>
    by_cases hb : b.title = t
    · simp [updatePrice, hb]
    · simpa [updatePrice, hb] using ih

theorem updatePrice_no_match (t : String) (p : ℚ) :
    ∀ db : List Book, (∀ b ∈ db, b.title ≠ t) → updatePrice db t p = (db, 0) := by
  intro db
  induction db with
  | nil => intro _; rfl
  | cons b rest ih =>
    intro h
    have hb : b.title ≠ t := h b (List.mem_cons_self _ _)
    have hrest := ih (fun x hx => h x (List.mem_cons_of_mem _ hx))
    simp [updatePrice, hb, hrest]

theorem updatePrice_at_first (t : String) (p : ℚ) :
    ∀ (db : List Book) (i : Nat) (hi : i < db.length),
      (db.get ⟨i, hi⟩).title = t →
      (∀ j (hj : j < db.length), j < i → (db.get ⟨j, hj⟩).title ≠ t) →
      (updatePrice db t p).2 = 1 ∧
      (updatePrice db t p).1 = db.set i { db.get ⟨i, hi⟩ with price := p } := by
  intro db
  induction db with
  | nil =>
    intro i hi
    simp at hi
  | cons b rest ih =>
    intro i hi hmatch hfirst
    by_cases hb : b.title = t
    · have hi0 : i = 0 := by
        by_contra h0
        exact hfirst 0 (Nat.succ_pos _) (Nat.pos_of_ne_zero h0) hb
      subst hi0
      constructor
      · simp [updatePrice, hb]
      · simp [updatePrice, hb]
    · have hine : i ≠ 0 := by
        intro h0
        subst h0
        exact hb hmatch
      obtain ⟨q, rfl⟩ : ∃ q, i = q + 1 := ⟨i - 1, by omega⟩
      have hq : q < rest.length := by simpa using hi
      have hm2 : (rest.get ⟨q, hq⟩).title = t := hmatch
      have hf2 : ∀ j (hj : j < rest.length), j < q → (rest.get ⟨j, hj⟩).title ≠ t := by
        intro j hj hjq
        exact hfirst (j + 1) (by simpa using Nat.succ_lt_succ hj) (Nat.succ_lt_succ hjq)
      obtain ⟨hc, hl⟩ := ih q hq hm2 hf2
      constructor
      · simp [updatePrice, hb, hc]
      · simp only [updatePrice, if_neg hb]
        rw [hl]
        rfl

theorem updatePrice_lookup (t : String) (p : ℚ) :
    ∀ db : List Book, (∃ b ∈ db, b.title = t) →
      Option.map Book.price (findByTitle (updatePrice db t p).1 t).head? = some p := by
  intro db
  induction db with
  | nil =>
    rintro ⟨b, hb, _⟩
    simp at hb
  | cons b rest ih =>
    intro hex
    by_cases hb : b.title = t
    · simp [updatePrice, hb, findByTitle, List.filter_cons]
    · have hex2 : ∃ x ∈ rest, x.title = t := by
        obtain ⟨x, hx, hxt⟩ := hex
        rcases List.mem_cons.mp hx with rfl | hx2
        · exact absurd hxt hb
        · exact ⟨x, hx2, hxt⟩
      simpa [updatePrice, hb, findByTitle, List.filter_cons] using ih hex2

/-- C7: for every title and new price, `updatePrice` mutates the `price`
field of at most the first record matching the title (modified count 0 or
1), creates no record when none matches, and leaves every other field of
the updated record and every other record unchanged (the post-state is
`db.set i` of the first match `i`, with only `price` replaced); a
subsequent lookup of the updated title shows the new price. -/
theorem updatePrice_first_match_only (db : List Book) (t : String) (p : ℚ) :
    (updatePrice db t p).2 ≤ 1 ∧
    (updatePrice db t p).1.length = db.length ∧
    ((∀ b ∈ db, b.title ≠ t) → updatePrice db t p = (db, 0)) ∧
    (∀ i (hi : i < db.length),
      (db.get ⟨i, hi⟩).title = t →
      (∀ j (hj : j < db.length), j < i → (db.get ⟨j, hj⟩).title ≠ t) →
      (updatePrice db t p).2 = 1 ∧
      (updatePrice db t p).1 = db.set i { db.get ⟨i, hi⟩ with price := p }) ∧
    ((∃ b ∈ db, b.title = t) →
      Option.map Book.price (findByTitle (updatePrice db t p).1 t).head? = some p) :=
  ⟨updatePrice_count_le db t p, updatePrice_length db t p,
    updatePrice_no_match t p db,
    fun i hi h1 h2 => updatePrice_at_first t p db i hi h1 h2,
    updatePrice_lookup t p db⟩

theorem updatePrice_first_match_only_witness :
    (∃ b ∈ ([⟨"B", "y", "g", 2001, 12, true⟩,
             ⟨"A", "x", "g", 2000, 10, true⟩] : List Book), b.title = "A") ∧
    Option.map Book.price
      (findByTitle
        (updatePrice [⟨"B", "y", "g", 2001, 12, true⟩,
                      ⟨"A", "x", "g", 2000, 10, true⟩] "A" (1499 / 100)).1
        "A").head? = some (1499 / 100) :=
  ⟨by decide,
    (updatePrice_first_match_only
      [⟨"B", "y", "g", 2001, 12, true⟩, ⟨"A", "x", "g", 2000, 10, true⟩]
      "A" (1499 / 100)).2.2.2.2 (by decide)⟩

/-! ## `deleteOne` by title -/

theorem deleteByTitle_count_le (db : List Book) (t : String) :
    (deleteByTitle db t).2 ≤ 1 := by
  induction db with
  | nil => exact Nat.zero_le _
  | cons b rest ih =>
    by_cases hb : b.title = t
    · simp [deleteByTitle, hb]
    · simpa [deleteByTitle, hb] using ih

theorem deleteByTitle_count_le_length (db : List Book) (t : String) :
    (deleteByTitle db t).2 ≤ db.length := by
  induction db with
  | nil => exact Nat.zero_le _
  | cons b rest ih =>
    by_cases hb : b.title = t
    · simp [deleteByTitle, hb]
    · simp only [deleteByTitle, if_neg hb, List.length_cons]
      omega

theorem deleteByTitle_length (db : List Book) (t : String) :
    (deleteByTitle db t).1.length = db.length - (deleteByTitle db t).2 := by
  induction db with
  | nil => rfl
  | cons b rest ih =>
    by_cases hb : b.title = t
    · simp [deleteByTitle, hb]
    · have hle := deleteByTitle_count_le_length rest t
      simp only [deleteByTitle, if_neg hb, List.length_cons]
      omega

theorem deleteByTitle_no_match (t : String) :
    ∀ db : List Book, (∀ b ∈ db, b.title ≠ t) → deleteByTitle db t = (db, 0) := by
  intro db
  induction db with
  | nil => intro _; rfl
  | cons b rest ih =>
    intro h
    have hb : b.title ≠ t := h b (List.mem_cons_self _ _)
    have hrest := ih (fun x hx => h x (List.mem_cons_of_mem _ hx))
    simp [deleteByTitle, hb, hrest]

theorem deleteByTitle_found (t : String) :
    ∀ db : List Book, (∃ b ∈ db, b.title = t) → (deleteByTitle db t).2 = 1 := by
  intro db
  induction db with
  | nil =>
    rintro ⟨b, hb, _⟩
    simp at hb
  | cons b rest ih =>
    intro hex
    by_cases hb : b.title = t
    · simp [deleteByTitle, hb]
    · have hex2 : ∃ x ∈ rest, x.title = t := by
        obtain ⟨x, hx, hxt⟩ := hex
        rcases List.mem_cons.mp hx with rfl | hx2
        · exact absurd hxt hb
        · exact ⟨x, hx2, hxt⟩
      simpa [deleteByTitle, hb] using ih hex2

theorem deleteByTitle_lookup_empty (t : String) :
    ∀ db : List Book, (findByTitle db t).length ≤ 1 →
      findByTitle (deleteByTitle db t).1 t = [] := by
  intro db
  induction db with
  | nil => intro _; rfl
  | cons b rest ih =>
    intro huniq
    by_cases hb : b.title = t
    · have hfb : findByTitle (b :: rest) t = b :: findByTitle rest t := by
        simp [findByTitle, List.filter_cons, hb]
      rw [hfb, List.length_cons] at huniq
      simp only [deleteByTitle, if_pos hb]
      exact List.eq_nil_of_length_eq_zero (by omega)
    · have hfb : findByTitle (b :: rest) t = findByTitle rest t := by
        simp [findByTitle, List.filter_cons, hb]
      rw [hfb] at huniq
      simpa [deleteByTitle, hb, findByTitle, List.filter_cons] using ih huniq

/-- C8 counterexample: on a collection holding two records with the same
title "B", `deleteByTitle "B"` removes only the first (`deleteOne`
semantics), so the subsequent lookup for "B" is *not* the empty sequence
the claim promises. -/
theorem deleteByTitle_duplicate_title_counterexample :
    (deleteByTitle [⟨"B", "x", "g", 2000, 10, true⟩,
                    ⟨"B", "y", "g", 2001, 12, true⟩] "B").2 = 1 ∧
    findByTitle (deleteByTitle [⟨"B", "x", "g", 2000, 10, true⟩,
                                ⟨"B", "y", "g", 2001, 12, true⟩] "B").1 "B" =
      [⟨"B", "y", "g", 2001, 12, true⟩] ∧
    findByTitle (deleteByTitle [⟨"B", "x", "g", 2000, 10, true⟩,
                                ⟨"B", "y", "g", 2001, 12, true⟩] "B").1 "B" ≠ [] := by
  refine ⟨by decide, by decide, by decide⟩

/-- C8 (amended): provided at most one record bears the given title (the
spec's uniqueness expectation for titles), `deleteByTitle(title)` removes
at most one matching record and returns a removed count of 0 or 1;
afterwards a lookup for that title yields an empty sequence, and the
total record count decreases by exactly the removed count — 1 when a
match existed, 0 when none did. -/
theorem deleteByTitle_unique_correct (db : List Book) (t : String)
    (huniq : (findByTitle db t).length ≤ 1) :
    (deleteByTitle db t).2 ≤ 1 ∧
    (deleteByTitle db t).1.length = db.length - (deleteByTitle db t).2 ∧
    findByTitle (deleteByTitle db t).1 t = [] ∧
    ((∃ b ∈ db, b.title = t) → (deleteByTitle db t).2 = 1) ∧
    ((∀ b ∈ db, b.title ≠ t) → deleteByTitle db t = (db, 0)) :=
  ⟨deleteByTitle_count_le db t, deleteByTitle_length db t,
    deleteByTitle_lookup_empty t db huniq,
    deleteByTitle_found t db, deleteByTitle_no_match t db⟩

theorem deleteByTitle_unique_correct_witness :
    (findByTitle [⟨"B", "y", "g", 2001, 12, true⟩,
                  ⟨"A", "x", "g", 2000, 10, true⟩] "B").length ≤ 1 ∧
    findByTitle
      (deleteByTitle [⟨"B", "y", "g", 2001, 12, true⟩,
                      ⟨"A", "x", "g", 2000, 10, true⟩] "B").1 "B" = [] :=
  ⟨by decide,
    (deleteByTitle_unique_correct
      [⟨"B", "y", "g", 2001, 12, true⟩, ⟨"A", "x", "g", 2000, 10, true⟩]
      "B" (by decide)).2.2.1⟩

/-- C9: the pagination helper's page size is the fixed constant 5
captured at definition time, not a caller-supplied parameter: `showPage`
takes only the page number (its only non-collection argument), and
whenever the store returns a page its length is at most 5. -/
theorem showPage_fixed_pageSize :
    pageSize = 5 ∧
    ∀ (db : List Book) (page : Int) (res : List ProjectedBook),
      showPage db page = some res → res.length ≤ 5 := by
  refine ⟨rfl, ?_⟩
  intro db page res h
  unfold showPage execFind at h
  split at h
  · exact absurd h (by simp)
  · rw [Option.some.injEq] at h
    subst h
    exact List.length_take_le _ _

theorem showPage_fixed_pageSize_witness :
    showPage [⟨"B", "y", "g", 2001, 12, true⟩, ⟨"A", "x", "g", 2000, 10, true⟩] 1 =
      some [⟨"A", "x", 10⟩, ⟨"B", "y", 12⟩] ∧
    ([⟨"A", "x", 10⟩, ⟨"B", "y", 12⟩] : List ProjectedBook).length ≤ 5 :=
  ⟨by decide,
    showPage_fixed_pageSize.2
      [⟨"B", "y", "g", 2001, 12, true⟩, ⟨"A", "x", "g", 2000, 10, true⟩]
      1 [⟨"A", "x", 10⟩, ⟨"B", "y", 12⟩] (by decide)⟩

/-- C10: the pagination helper performs no validation of its input: for
every integer page it computes `skip = (page - 1) * 5` exactly and always
forwards the request to the store, so `showPage 0` passes the negative
offset `-5` and `showPage (-1)` passes `-10` rather than rejecting the
call. -/
theorem showPage_no_validation :
    (∀ page : Int, (showPageRequest page).skip = (page - 1) * 5) ∧
    (showPageRequest 0).skip = -5 ∧
    (showPageRequest (-1)).skip = -10 ∧
    (∀ (db : List Book) (page : Int),
      showPage db page = execFind db (showPageRequest page)) :=
  ⟨fun _ => rfl, by decide, by decide, fun _ _ => rfl⟩
